import Mathlib

/-!
Shallow embedding of the rlox lexical scanner (src/main.rs) together with
proofs about its behaviour.

Modelling conventions:
* Source text and lexemes are `List Char`; Rust's `String::len` (a byte
  count over the UTF-8 encoding) is modelled by `byteLen`, which sums the
  encoded size of every character.
* The cursor field `current` is incremented once per consumed character
  (Rust `self.source.chars().nth(self.current)` resolves it as a
  character index, while `is_at_end` compares it against the byte length
  and lexeme slicing uses it as a byte offset, exactly as the Rust does).
* Fallible operations are modelled in `Option`: `none` stands for a Rust
  panic (`unwrap` on `None`/`Err`, or byte slicing off a character
  boundary or with a reversed range).
* The process-wide diagnostic sink `LOX` (`Lox::error`) is modelled by a
  `diags` list carried in the scanner state, recorded in call order.
* Loops are written with an explicit fuel argument; every call site
  passes `byteLen source + 1`, which dominates the number of iterations
  since each iteration consumes at least one character and every loop
  stops once `current` reaches the byte length.
-/

namespace Rlox

/-- Size in bytes of one character in the UTF-8 encoding, as counted by
Rust `String::len`. -/
def utf8Size (c : Char) : Nat :=
  if c.toNat ≤ 0x7F then 1
  else if c.toNat ≤ 0x7FF then 2
  else if c.toNat ≤ 0xFFFF then 3
  else 4

/-- Byte length of a string: Rust `self.source.len()`. -/
def byteLen (s : List Char) : Nat := (s.map utf8Size).sum

/-- Drop a prefix of `n` bytes from a character list; `none` when `n`
does not land on a character boundary or runs past the end (Rust byte
slicing panics there). -/
def byteDrop : List Char → Nat → Option (List Char)
  | s, 0 => some s
  | [], _ + 1 => none
  | c :: cs, n + 1 =>
      if utf8Size c ≤ n + 1 then byteDrop cs (n + 1 - utf8Size c) else none

/-- Take a prefix of `n` bytes from a character list; `none` when `n`
does not land on a character boundary or runs past the end. -/
def byteTake : List Char → Nat → Option (List Char)
  | _, 0 => some []
  | [], _ + 1 => none
  | c :: cs, n + 1 =>
      if utf8Size c ≤ n + 1 then (byteTake cs (n + 1 - utf8Size c)).map (c :: ·) else none

/-- Rust byte-range slicing `s[a..b]`: defined when `a ≤ b` and both
offsets are character boundaries inside the string, a panic (`none`)
otherwise. -/
def byteSlice (s : List Char) (a b : Nat) : Option (List Char) :=
  if a ≤ b then (byteDrop s a).bind (fun t => byteTake t (b - a)) else none

/-- Token kinds, from the `TokenType` enum. -/
inductive TokenType
  | LeftParen | RightParen | LeftBrace | RightBrace
  | Comma | Dot | Minus | Plus | Semicolon | Slash | Star
  | Bang | BangEqual | Equal | EqualEqual
  | Greater | GreaterEqual | Less | LessEqual
  | Identifier | String | Number
  | And | Class | Else | False | Fun | For | If | Nil | Or
  | Print | Return | Super | This | True | Var | While
  | Eof
deriving DecidableEq

/-- Literal payloads, from the `Literal` enum.  `Integer` mirrors the
`i32` payload.  `Float` abstracts IEEE `f32` rounding: `Float m k`
denotes the exact decimal value `m / 10 ^ k` of the parsed lexeme. -/
inductive Literal
  | Integer (n : Int)
  | Float (mantissa : Nat) (frac : Nat)
  | String (s : List Char)
  | None
deriving DecidableEq

/-- One scanned token, from the `Token` struct. -/
structure Token where
  token_type : TokenType
  lexeme : List Char
  literal : Literal
  line : Nat
deriving DecidableEq

/-- Scanner state, from the `Scanner` struct, extended with the `diags`
list modelling the global `LOX` diagnostic sink (`Lox::error` pushes a
`(line, message)` pair).  The keyword table is the constant `keywords`
below rather than a field. -/
structure Scanner where
  source : List Char
  tokens : List Token
  start : Nat
  current : Nat
  line : Nat
  diags : List (Nat × String)
deriving DecidableEq

/-- The keyword table built in `run` (a 13-entry map: the source omits
the spellings "and", "class" and "else" even though the corresponding
`TokenType` variants exist). -/
def keywords (text : List Char) : Option TokenType :=
  if text = ("false").data then some TokenType.False
  else if text = ("for").data then some TokenType.For
  else if text = ("fun").data then some TokenType.Fun
  else if text = ("if").data then some TokenType.If
  else if text = ("nil").data then some TokenType.Nil
  else if text = ("or").data then some TokenType.Or
  else if text = ("print").data then some TokenType.Print
  else if text = ("return").data then some TokenType.Return
  else if text = ("super").data then some TokenType.Super
  else if text = ("this").data then some TokenType.This
  else if text = ("true").data then some TokenType.True
  else if text = ("var").data then some TokenType.Var
  else if text = ("while").data then some TokenType.While
  else none

/-- Rust `Scanner::is_digit`. -/
def is_digit (c : Char) : Bool := c ≥ '0' && c ≤ '9'

/-- Rust `Scanner::is_alpha`. -/
def is_alpha (c : Char) : Bool :=
  (c ≥ 'a' && c ≤ 'z') || (c ≥ 'A' && c ≤ 'Z') || c = '_'

/-- Rust `Scanner::is_alpah_numeric` (name kept from the source). -/
def is_alpah_numeric (c : Char) : Bool := is_alpha c || is_digit c

/-- Rust `Scanner::is_at_end`: compares the cursor against the byte
length of the source. -/
def is_at_end (s : Scanner) : Bool := s.current ≥ byteLen s.source

/-- Rust `Scanner::advance`: `self.source.chars().nth(self.current).unwrap()`
then `self.current += 1`; the `unwrap` panics (`none`) when `current` is
at or past the last character. -/
def advance (s : Scanner) : Option (Char × Scanner) :=
  (s.source.get? s.current).map (fun c => (c, { s with current := s.current + 1 }))

/-- Rust `Scanner::match_token`: early `false` at end of input, otherwise
inspect (`unwrap`, may panic) the current character and consume it only
on equality. -/
def match_token (s : Scanner) (expected : Char) : Option (Bool × Scanner) :=
  if is_at_end s then some (false, s)
  else
    (s.source.get? s.current).map (fun c =>
      if c ≠ expected then (false, s)
      else (true, { s with current := s.current + 1 }))

/-- Rust `Scanner::peek`: the null sentinel at end of input, otherwise
the current character (`unwrap`, may panic in the zone where the
character index has passed the last character but not the byte length). -/
def peek (s : Scanner) : Option Char :=
  if is_at_end s then some '\x00'
  else s.source.get? s.current

/-- Rust `Scanner::peek_next`. -/
def peek_next (s : Scanner) : Option Char :=
  if s.current + 1 ≥ byteLen s.source then some '\x00'
  else s.source.get? (s.current + 1)

/-- Rust `Scanner::add_token`: slices `source[start..current]` (byte
range, may panic) for the lexeme and pushes the token at the current
line. -/
def add_token (s : Scanner) (token_type : TokenType) (literal : Literal) :
    Option Scanner :=
  (byteSlice s.source s.start s.current).map (fun text =>
    { s with tokens := s.tokens ++ [{ token_type := token_type, lexeme := text,
                                      literal := literal, line := s.line }] })

/-- The `while self.peek() != '"' && !self.is_at_end()` loop inside
`Scanner::scan_string`, incrementing `line` for each embedded newline. -/
def string_loop : Nat → Scanner → Option Scanner
  | 0, _ => none
  | fuel + 1, s =>
    (peek s).bind (fun c =>
      if c ≠ '"' ∧ is_at_end s = false then
        (advance (if c = '\n' then { s with line := s.line + 1 } else s)).bind
          (fun p => string_loop fuel p.2)
      else some s)

/-- Rust `Scanner::scan_string`.  Note two faithful quirks of the
source: the closing quote is never consumed (the loop stops on it and no
further `advance` happens), and the payload slice is
`source[start + 1..current - 1]`, which both drops the final character
of the string body and panics on the empty string literal (range
`[1..0]`). -/
def scan_string (s : Scanner) : Option Scanner :=
  (string_loop (byteLen s.source + 1) s).bind (fun s1 =>
    if is_at_end s1 then
      some { s1 with diags := s1.diags ++ [(s1.line, "Unterminated string.")] }
    else
      (byteSlice s1.source (s1.start + 1) (s1.current - 1)).bind (fun value =>
        add_token s1 TokenType.String (Literal.String value)))

/-- A `while self.is_digit(self.peek())` loop from `Scanner::number`. -/
def digit_loop : Nat → Scanner → Option Scanner
  | 0, _ => none
  | fuel + 1, s =>
    (peek s).bind (fun c =>
      if is_digit c then (advance s).bind (fun p => digit_loop fuel p.2)
      else some s)

/-- Fold a digit string into its decimal value. -/
def digitsVal (l : List Char) : Nat :=
  l.foldl (fun acc c => 10 * acc + (c.toNat - 48)) 0

/-- Models Rust `str::parse::<i32>` restricted to the digit-only
lexemes produced by `Scanner::number` (the only call site): a value
above `i32::MAX = 2147483647` is `Err(PosOverflow)`, modelled as `none`;
the caller unwraps it, so `none` is a panic. -/
def parse_i32 (l : List Char) : Option Int :=
  if l ≠ [] ∧ l.all is_digit then
    if digitsVal l ≤ 2147483647 then some (Int.ofNat (digitsVal l)) else none
  else none

/-- Models Rust `str::parse::<f32>` on the `digits '.' digits` lexemes
produced by `Scanner::number`, abstracting IEEE rounding: the result is
the exact decimal value, returned as mantissa and fraction length (the
`Literal.Float m k` payload denotes `m / 10 ^ k`).  On those lexemes the
Rust parse never returns `Err`. -/
def parse_f32 (l : List Char) : Option (Nat × Nat) :=
  let intPart := l.takeWhile (fun c => c ≠ '.')
  let fracPart := (l.dropWhile (fun c => c ≠ '.')).drop 1
  if intPart ≠ [] ∧ intPart.all is_digit ∧ fracPart.all is_digit then
    some (digitsVal (intPart ++ fracPart), fracPart.length)
  else none

/-- Rust `Scanner::number`: a maximal digit run, then a fractional part
only when a `'.'` is followed by a digit; the lexeme is parsed with an
uncontrolled `unwrap` (`value.trim()` is the identity on these lexemes
and is not modelled separately). -/
def number (s : Scanner) : Option Scanner :=
  (digit_loop (byteLen s.source + 1) s).bind (fun s1 =>
    (peek s1).bind (fun p =>
      (if p = '.' then (peek_next s1).map is_digit else some false).bind
        (fun isFrac =>
          (if isFrac then
              (advance s1).bind (fun q => digit_loop (byteLen q.2.source + 1) q.2)
            else some s1).bind (fun s2 =>
            (byteSlice s2.source s2.start s2.current).bind (fun value =>
              if isFrac then
                (parse_f32 value).bind (fun mk =>
                  add_token s2 TokenType.Number (Literal.Float mk.1 mk.2))
              else
                (parse_i32 value).bind (fun n =>
                  add_token s2 TokenType.Number (Literal.Integer n)))))))

/-- The `while self.is_alpah_numeric(self.peek())` loop from
`Scanner::identifier`. -/
def ident_loop : Nat → Scanner → Option Scanner
  | 0, _ => none
  | fuel + 1, s =>
    (peek s).bind (fun c =>
      if is_alpah_numeric c then (advance s).bind (fun p => ident_loop fuel p.2)
      else some s)

/-- Rust `Scanner::identifier`: maximal alphanumeric-or-underscore run,
then a keyword-table lookup deciding between a reserved token kind and a
generic identifier carrying its text. -/
def identifier (s : Scanner) : Option Scanner :=
  (ident_loop (byteLen s.source + 1) s).bind (fun s1 =>
    (byteSlice s1.source s1.start s1.current).bind (fun text =>
      match keywords text with
      | some t => add_token s1 t Literal.None
      | none => add_token s1 TokenType.Identifier (Literal.String text)))

/-- The comment-skipping loop in the `'/'` arm of `Scanner::scan_token`. -/
def comment_loop : Nat → Scanner → Option Scanner
  | 0, _ => none
  | fuel + 1, s =>
    (peek s).bind (fun c =>
      if c ≠ '\n' ∧ is_at_end s = false then
        (advance s).bind (fun p => comment_loop fuel p.2)
      else some s)

/-- The dispatch on the consumed character: the arms of the Rust `match`
in `Scanner::scan_token`, in source order (`s` is the state after the
initial `advance`). -/
def scan_token_dispatch (c : Char) (s : Scanner) : Option Scanner :=
  if c = '(' then add_token s TokenType.LeftParen Literal.None
  else if c = ')' then add_token s TokenType.RightParen Literal.None
  else if c = '\x7b' then add_token s TokenType.LeftBrace Literal.None
  else if c = '\x7d' then add_token s TokenType.RightBrace Literal.None
  else if c = ',' then add_token s TokenType.Comma Literal.None
  else if c = '.' then add_token s TokenType.Dot Literal.None
  else if c = '-' then add_token s TokenType.Minus Literal.None
  else if c = '+' then add_token s TokenType.Plus Literal.None
  else if c = ';' then add_token s TokenType.Semicolon Literal.None
  else if c = '*' then add_token s TokenType.Star Literal.None
  else if c = '!' then
    (match_token s '=').bind (fun ms =>
      if ms.1 then add_token ms.2 TokenType.BangEqual Literal.None
      else add_token ms.2 TokenType.Bang Literal.None)
  else if c = '=' then
    (match_token s '=').bind (fun ms =>
      if ms.1 then add_token ms.2 TokenType.EqualEqual Literal.None
      else add_token ms.2 TokenType.Equal Literal.None)
  else if c = '<' then
    (match_token s '=').bind (fun ms =>
      if ms.1 then add_token ms.2 TokenType.LessEqual Literal.None
      else add_token ms.2 TokenType.Less Literal.None)
  else if c = '>' then
    (match_token s '=').bind (fun ms =>
      if ms.1 then add_token ms.2 TokenType.GreaterEqual Literal.None
      else add_token ms.2 TokenType.Greater Literal.None)
  else if c = '/' then
    (match_token s '/').bind (fun ms =>
      if ms.1 then comment_loop (byteLen ms.2.source + 1) ms.2
      else add_token ms.2 TokenType.Slash Literal.None)
  else if c = ' ' then some s
  else if c = '\x0d' then some s
  else if c = '\t' then some s
  else if c = '\n' then some { s with line := s.line + 1 }
  else if c = '"' then scan_string s
  else if is_digit c then number s
  else if is_alpha c then identifier s
  else some { s with diags := s.diags ++ [(s.line, "Unexpected character.")] }

/-- Rust `Scanner::scan_token`: consume one character and dispatch on
it. -/
def scan_token (s : Scanner) : Option Scanner :=
  (advance s).bind (fun cs => scan_token_dispatch cs.1 cs.2)

/-- The `while !self.is_at_end()` loop of `Scanner::scan_tokens`:
set `start` to `current`, then scan one token. -/
def scan_loop : Nat → Scanner → Option Scanner
  | 0, _ => none
  | fuel + 1, s =>
    if is_at_end s then some s
    else (scan_token { s with start := s.current }).bind (scan_loop fuel)

/-- Rust `Scanner::scan_tokens`: run the loop, then append the
end-of-input token at the current line. -/
def scan_tokens (s : Scanner) : Option Scanner :=
  (scan_loop (byteLen s.source + 1) s).map (fun s2 =>
    { s2 with tokens := s2.tokens ++
        [{ token_type := TokenType.Eof, lexeme := [], literal := Literal.None,
           line := s2.line }] })

/-- Rust `run`: build the scanner over the source (`start = current = 0`,
`line = 1`, no tokens, empty diagnostic sink) and scan. -/
def run (source : List Char) : Option Scanner :=
  scan_tokens { source := source, tokens := [], start := 0, current := 0,
                line := 1, diags := [] }

/-- One-based line number of position `i` in the source: one plus the
newlines strictly before that character position. -/
def lineAt (src : List Char) (i : Nat) : Nat := 1 + (src.take i).count '\n'

/-- A token is anchored in the source: some byte range `[a..b]` of the
source slices to its lexeme and its `line` field is the line of the
position just past the lexeme (its last character's line). -/
def TokAt (src : List Char) (t : Token) : Prop :=
  ∃ a b, a ≤ b ∧ b ≤ src.length ∧ byteSlice src a b = some t.lexeme ∧
    t.line = lineAt src b

/-- Line ordering between tokens. -/
def lineLE (t u : Token) : Prop := t.line ≤ u.line

/-- Postcondition relating a scanner state to a later one within one
scan: the source is fixed, the cursor stays within it, the line counter
only grows and keeps counting consumed newlines, and the token list
grows by anchored non-end-of-input tokens in line order. -/
def Post (src : List Char) (s s1 : Scanner) : Prop :=
  s1.source = src ∧ s1.current ≤ src.length ∧
  s.line ≤ s1.line ∧
  (s.line = lineAt src s.current → s1.line = lineAt src s1.current) ∧
  ∃ new, s1.tokens = s.tokens ++ new ∧ new.Pairwise lineLE ∧
    ∀ t ∈ new, TokAt src t ∧ t.token_type ≠ TokenType.Eof ∧
      s.line ≤ t.line ∧ t.line ≤ s1.line

end Rlox

namespace Rlox

/-- Every character occupies at least one byte in UTF-8. -/
theorem utf8Size_pos (c : Char) : 1 ≤ utf8Size c := by
  unfold utf8Size
  split_ifs <;> omega

/-- The character count of a string never exceeds its byte count. -/
theorem length_le_byteLen (s : List Char) : s.length ≤ byteLen s := by
  induction s with
  | nil => simp [byteLen]
  | cons c cs ih =>
      have h1 := utf8Size_pos c
      simp only [byteLen, List.map_cons, List.sum_cons, List.length_cons] at ih ⊢
      omega

/-- C1: scanning a decimal literal beyond the representable range of the
target integer type does not report a diagnostic and continue — the
uncontrolled `parse::<i32>().unwrap()` in `Scanner::number` panics, so
the whole scan aborts with no token list at all (modelled as `none`). -/
theorem c1_number_overflow_panics : run (("2147483648").data) = none := by decide

/-- C2: the keyword table built in `run` omits the spellings "and",
"class" and "else" (their `TokenType` variants exist but are never
produced), so each of those reserved spellings is scanned as a generic
`Identifier` token carrying its text instead of the reserved token kind. -/
theorem c2_missing_keywords :
    (run (("and").data)).map (fun st => (st.tokens, st.diags)) =
      some ([{ token_type := TokenType.Identifier, lexeme := ("and").data,
               literal := Literal.String (("and").data), line := 1 },
             { token_type := TokenType.Eof, lexeme := [], literal := Literal.None,
               line := 1 }], []) ∧
    (run (("class").data)).map (fun st => (st.tokens, st.diags)) =
      some ([{ token_type := TokenType.Identifier, lexeme := ("class").data,
               literal := Literal.String (("class").data), line := 1 },
             { token_type := TokenType.Eof, lexeme := [], literal := Literal.None,
               line := 1 }], []) ∧
    (run (("else").data)).map (fun st => (st.tokens, st.diags)) =
      some ([{ token_type := TokenType.Identifier, lexeme := ("else").data,
               literal := Literal.String (("else").data), line := 1 },
             { token_type := TokenType.Eof, lexeme := [], literal := Literal.None,
               line := 1 }], []) ∧
    keywords (("and").data) = none := by decide

/-- C4: cursor positions are character counts but `is_at_end` compares
them against the byte length and slicing uses them as byte offsets, so
the units are inconsistent: on the one-character two-byte source "é" the
scan calls `advance` past the last character and panics (`none`). -/
theorem c4_multibyte_panics : run (['é']) = none := by decide

/-- C7: numeric literal recognition — "3.14" is one `Number` token with
lexeme "3.14" and the fractional payload 3.14 (modelled exactly as
`Float 314 2`, i.e. 314 / 10 ^ 2); "42" is one `Number` token with
integer payload 42; "3." is a `Number` token "3" with integer payload 3
immediately followed by a `Dot` token, because the dot is only consumed
when the character after it is itself a digit. -/
theorem c7_number_recognition :
    (run (("3.14").data)).map (fun st => (st.tokens, st.diags)) =
      some ([{ token_type := TokenType.Number, lexeme := ("3.14").data,
               literal := Literal.Float 314 2, line := 1 },
             { token_type := TokenType.Eof, lexeme := [], literal := Literal.None,
               line := 1 }], []) ∧
    (run (("42").data)).map (fun st => (st.tokens, st.diags)) =
      some ([{ token_type := TokenType.Number, lexeme := ("42").data,
               literal := Literal.Integer 42, line := 1 },
             { token_type := TokenType.Eof, lexeme := [], literal := Literal.None,
               line := 1 }], []) ∧
    (run (("3.").data)).map (fun st => (st.tokens, st.diags)) =
      some ([{ token_type := TokenType.Number, lexeme := [('3')],
               literal := Literal.Integer 3, line := 1 },
             { token_type := TokenType.Dot, lexeme := [('.')],
               literal := Literal.None, line := 1 },
             { token_type := TokenType.Eof, lexeme := [], literal := Literal.None,
               line := 1 }], []) := by decide

/-- C3 fails as stated: on the unterminated string source `"a\nb` (an
opening quote on line 1 and an embedded newline), the single
`UnterminatedString` diagnostic is reported at line 2 — the line reached
at end of input — not at the starting line 1 of the opening quote
(`lineAt src 0 = 1`). -/
theorem c3_unterminated_line_cex :
    (run (['"', 'a', '\n', 'b'])).map (fun st => (st.tokens, st.diags)) =
      some ([{ token_type := TokenType.Eof, lexeme := [], literal := Literal.None,
               line := 2 }], [(2, "Unterminated string.")]) ∧
    lineAt ['"', 'a', '\n', 'b'] 0 = 1 ∧ (2 : Nat) ≠ 1 := by decide

/-- C5 fails as stated: on the source `"a\nb"` the string-literal token
(whose first character, the opening quote, sits at position 0 on line 1)
carries line 2, the line of its last consumed character — not the line
of its opening quote. -/
theorem c5_string_line_cex :
    (run (['"', 'a', '\n', 'b', '"'])).map
        (fun st => st.tokens.map (fun t => (t.token_type, t.line))) =
      some [(TokenType.String, 2), (TokenType.Eof, 2)] ∧
    lineAt ['"', 'a', '\n', 'b', '"'] 0 = 1 ∧ (2 : Nat) ≠ 1 := by decide

/-- C10: `match_token` at end of input, or when the current character
exists and differs from the expected one, returns `false` without
consuming anything and leaves the scanner state (source, start, current,
line, tokens, diagnostics) entirely unchanged — and, unlike `advance`,
it cannot panic at end of input. -/
theorem c10_match_token_frame (s : Scanner) (c : Char)
    (h : is_at_end s = true ∨
         ∃ d, s.source.get? s.current = some d ∧ d ≠ c) :
    match_token s c = some (false, s) := by
  unfold match_token
  rcases h with h | ⟨d, hd, hne⟩
  · rw [if_pos h]
  · have hlt : s.current < s.source.length := List.get?_eq_some.mp hd |>.1
    have hend : ¬ is_at_end s = true := by
      have hle := length_le_byteLen s.source
      simp only [is_at_end, ge_iff_le, decide_eq_true_eq]
      omega
    rw [if_neg hend, hd]
    simp [hne]

/-- Witness for C10 at a concrete scanner state: cursor at end of the
one-character source "a". -/
theorem c10_match_token_frame_witness :
    match_token { source := [('a')], tokens := [], start := 0, current := 1,
                  line := 1, diags := [] } ('=') = some (false,
      { source := [('a')], tokens := [], start := 0, current := 1,
        line := 1, diags := [] }) :=
  c10_match_token_frame _ _ (Or.inl (by decide))

theorem byteLen_nil : byteLen [] = 0 := rfl

theorem byteLen_cons (c : Char) (cs : List Char) :
    byteLen (c :: cs) = utf8Size c + byteLen cs := by
  simp [byteLen]

/-- On all-ASCII text the byte length and the character count agree. -/
theorem byteLen_ascii {s : List Char} (h : ∀ c ∈ s, utf8Size c = 1) :
    byteLen s = s.length := by
  induction s with
  | nil => rfl
  | cons c cs ih =>
      rw [byteLen_cons, h c (by simp), ih (fun d hd => h d (by simp [hd]))]
      simp [Nat.add_comm]

theorem byteTake_byteLen (s : List Char) : byteTake s (byteLen s) = some s := by
  induction s with
  | nil => rfl
  | cons c cs ih =>
      have h1 := utf8Size_pos c
      obtain ⟨m, hm⟩ : ∃ m, byteLen (c :: cs) = m + 1 := by
        rw [byteLen_cons]; exact ⟨utf8Size c + byteLen cs - 1, by omega⟩
      rw [hm]
      have hm2 : utf8Size c ≤ m + 1 := by rw [byteLen_cons] at hm; omega
      have hm3 : m + 1 - utf8Size c = byteLen cs := by rw [byteLen_cons] at hm; omega
      show (if utf8Size c ≤ m + 1 then (byteTake cs (m + 1 - utf8Size c)).map (c :: ·)
            else none) = some (c :: cs)
      rw [if_pos hm2, hm3, ih]
      rfl

theorem byteDrop_byteLen (s : List Char) : byteDrop s (byteLen s) = some [] := by
  induction s with
  | nil => rfl
  | cons c cs ih =>
      have h1 := utf8Size_pos c
      obtain ⟨m, hm⟩ : ∃ m, byteLen (c :: cs) = m + 1 := by
        rw [byteLen_cons]; exact ⟨utf8Size c + byteLen cs - 1, by omega⟩
      rw [hm]
      have hm2 : utf8Size c ≤ m + 1 := by rw [byteLen_cons] at hm; omega
      have hm3 : m + 1 - utf8Size c = byteLen cs := by rw [byteLen_cons] at hm; omega
      show (if utf8Size c ≤ m + 1 then byteDrop cs (m + 1 - utf8Size c) else none) =
        some []
      rw [if_pos hm2, hm3, ih]

theorem byteDrop_zero (s : List Char) : byteDrop s 0 = some s := by
  cases s <;> rfl

theorem byteSlice_zero_byteLen (s : List Char) : byteSlice s 0 (byteLen s) = some s := by
  unfold byteSlice
  rw [if_pos (Nat.zero_le _), byteDrop_zero]
  show (byteTake s (byteLen s - 0)) = some s
  rw [Nat.sub_zero, byteTake_byteLen]

theorem byteSlice_byteLen_byteLen (s : List Char) :
    byteSlice s (byteLen s) (byteLen s) = some [] := by
  unfold byteSlice
  rw [if_pos le_rfl, byteDrop_byteLen]
  show byteTake [] (byteLen s - byteLen s) = some []
  rw [Nat.sub_self]
  rfl

theorem byteSlice_le {s : List Char} {a b : Nat} {v : List Char}
    (h : byteSlice s a b = some v) : a ≤ b := by
  unfold byteSlice at h
  by_cases hab : a ≤ b
  · exact hab
  · rw [if_neg hab] at h; cases h

theorem lineAt_zero (src : List Char) : lineAt src 0 = 1 := by simp [lineAt]

theorem lineAt_length (src : List Char) :
    lineAt src src.length = 1 + src.count '\n' := by
  simp [lineAt]

theorem lineAt_succ {src : List Char} {i : Nat} {c : Char}
    (h : src.get? i = some c) :
    lineAt src (i + 1) = lineAt src i + (if c = '\n' then 1 else 0) := by
  unfold lineAt
  rw [List.get?_eq_getElem?] at h
  rw [List.take_succ, h]
  simp only [Option.toList_some, List.count_append]
  by_cases hc : c = '\n'
  · subst hc; simp [List.count_singleton]; omega
  · rw [if_neg hc]
    have : List.count '\n' [c] = 0 := by
      simp [List.count_singleton']
      exact fun hcc => absurd hcc hc
    omega

theorem get?_lt {l : List Char} {n : Nat} {c : Char} (h : l.get? n = some c) :
    n < l.length :=
  List.get?_eq_some.mp h |>.1

theorem is_at_end_false_of_get {s : Scanner} {c : Char}
    (h : s.source.get? s.current = some c) : is_at_end s = false := by
  have hlt := get?_lt h
  have hle := length_le_byteLen s.source
  simp only [is_at_end, ge_iff_le, decide_eq_false_iff_not]
  omega

theorem advance_some {s : Scanner} {p : Char × Scanner} (h : advance s = some p) :
    s.source.get? s.current = some p.1 ∧
      p.2 = { s with current := s.current + 1 } := by
  unfold advance at h
  rw [Option.map_eq_some'] at h
  obtain ⟨c, hg, hc⟩ := h
  subst hc
  exact ⟨hg, rfl⟩

theorem peek_cases {s : Scanner} {c : Char} (h : peek s = some c) :
    (is_at_end s = true ∧ c = '\x00') ∨
      (is_at_end s = false ∧ s.source.get? s.current = some c) := by
  unfold peek at h
  by_cases hend : is_at_end s = true
  · rw [if_pos hend] at h
    cases h
    exact Or.inl ⟨hend, rfl⟩
  · rw [if_neg hend] at h
    exact Or.inr ⟨Bool.not_eq_true _ |>.mp hend, h⟩

theorem match_token_cases {s s1 : Scanner} {e : Char} {b : Bool}
    (h : match_token s e = some (b, s1)) :
    (b = false ∧ s1 = s) ∨
      (b = true ∧ s.source.get? s.current = some e ∧
        s1 = { s with current := s.current + 1 }) := by
  unfold match_token at h
  by_cases hend : is_at_end s = true
  · rw [if_pos hend] at h
    cases h
    exact Or.inl ⟨rfl, rfl⟩
  · rw [if_neg hend] at h
    rw [Option.map_eq_some'] at h
    obtain ⟨c, hg, hc⟩ := h
    by_cases hce : c ≠ e
    · rw [if_pos hce] at hc
      cases hc
      exact Or.inl ⟨rfl, rfl⟩
    · rw [if_neg hce] at hc
      cases hc
      push_neg at hce
      subst hce
      exact Or.inr ⟨rfl, hg, rfl⟩

theorem Post_refl {src : List Char} {s : Scanner} (hs : s.source = src)
    (hc : s.current ≤ src.length) : Post src s s := by
  refine ⟨hs, hc, le_rfl, fun h => h, [], (List.append_nil _).symm,
    List.Pairwise.nil, ?_⟩
  intro t ht
  cases ht

theorem Post_trans {src : List Char} {s s1 s2 : Scanner}
    (h1 : Post src s s1) (h2 : Post src s1 s2) : Post src s s2 := by
  obtain ⟨hs1, hc1, hl1, hi1, new1, ht1, hp1, ha1⟩ := h1
  obtain ⟨hs2, hc2, hl2, hi2, new2, ht2, hp2, ha2⟩ := h2
  refine ⟨hs2, hc2, le_trans hl1 hl2, fun h => hi2 (hi1 h), new1 ++ new2,
    by rw [ht2, ht1, List.append_assoc], ?_, ?_⟩
  · rw [List.pairwise_append]
    refine ⟨hp1, hp2, ?_⟩
    intro a ha b hb
    show a.line ≤ b.line
    exact le_trans (ha1 a ha).2.2.2 (ha2 b hb).2.2.1
  · intro t ht
    rcases List.mem_append.mp ht with h | h
    · obtain ⟨hT, hE, hge, hle⟩ := ha1 t h
      exact ⟨hT, hE, hge, le_trans hle hl2⟩
    · obtain ⟨hT, hE, hge, hle⟩ := ha2 t h
      exact ⟨hT, hE, le_trans hl1 hge, hle⟩

/-- Consuming one non-newline character moves the cursor and keeps the
line invariant. -/
theorem Post_bump {src : List Char} {s : Scanner} {c : Char}
    (hs : s.source = src) (hg : src.get? s.current = some c) (hc' : c ≠ '\n') :
    Post src s { s with current := s.current + 1 } := by
  have hlt := get?_lt hg
  refine ⟨hs, by simpa using hlt, le_rfl, ?_, [], (List.append_nil _).symm,
    List.Pairwise.nil, fun t ht => absurd ht (List.not_mem_nil t)⟩
  intro h
  show s.line = lineAt src (s.current + 1)
  rw [lineAt_succ hg, if_neg hc', Nat.add_zero]
  exact h

/-- Consuming one newline character while incrementing the line counter
keeps the line invariant. -/
theorem Post_bump_newline {src : List Char} {s : Scanner}
    (hs : s.source = src) (hg : src.get? s.current = some '\n') :
    Post src s { s with current := s.current + 1, line := s.line + 1 } := by
  have hlt := get?_lt hg
  refine ⟨hs, by simpa using hlt, by simp, ?_, [], (List.append_nil _).symm,
    List.Pairwise.nil, fun t ht => absurd ht (List.not_mem_nil t)⟩
  intro h
  show s.line + 1 = lineAt src (s.current + 1)
  rw [lineAt_succ hg, if_pos rfl, h]

theorem is_digit_ne {c x : Char} (hd : is_digit c = true)
    (hx : is_digit x = false) : c ≠ x := by
  intro h
  subst h
  rw [hd] at hx
  cases hx

theorem is_alpah_numeric_ne {c x : Char} (hd : is_alpah_numeric c = true)
    (hx : is_alpah_numeric x = false) : c ≠ x := by
  intro h
  subst h
  rw [hd] at hx
  cases hx

/-- The loop lemma shape shared by the token-free scanning loops:
the final state relates by `Post` and tokens and diagnostics are
untouched. -/
theorem comment_loop_post {src : List Char} :
    ∀ (fuel : Nat) (s s1 : Scanner), s.source = src → s.current ≤ src.length →
      comment_loop fuel s = some s1 →
      Post src s s1 ∧ s1.tokens = s.tokens ∧ s1.diags = s.diags ∧
        s1.line = s.line ∧ s1.start = s.start := by
  intro fuel
  induction fuel with
  | zero =>
      intro s s1 _ _ heq
      exact absurd heq (by simp [comment_loop])
  | succ fuel ih =>
      intro s s1 hs hc heq
      simp only [comment_loop] at heq
      rw [Option.bind_eq_some] at heq
      obtain ⟨c, hp, heq⟩ := heq
      by_cases hcond : c ≠ '\n' ∧ is_at_end s = false
      · rw [if_pos hcond] at heq
        rw [Option.bind_eq_some] at heq
        obtain ⟨p, hadv, heq⟩ := heq
        obtain ⟨hg, hp2⟩ := advance_some hadv
        have hgc : s.source.get? s.current = some c := by
          rcases peek_cases hp with ⟨he, _⟩ | ⟨_, hgc⟩
          · rw [he] at hcond; cases hcond.2
          · exact hgc
        rw [hp2] at heq
        rw [hs] at hgc
        obtain ⟨hPost, hTok, hDiag, hLine, hStart⟩ :=
          ih { s with current := s.current + 1 } s1 hs
            (by simpa using get?_lt hgc) heq
        exact ⟨Post_trans (Post_bump hs hgc hcond.1) hPost, hTok, hDiag, hLine,
          hStart⟩
      · rw [if_neg hcond] at heq
        cases heq
        exact ⟨Post_refl hs hc, rfl, rfl, rfl, rfl⟩

/-- The string-body loop: `Post` holds, tokens and diagnostics are
untouched, and `start` is preserved. -/
theorem string_loop_post {src : List Char} :
    ∀ (fuel : Nat) (s s1 : Scanner), s.source = src → s.current ≤ src.length →
      string_loop fuel s = some s1 →
      Post src s s1 ∧ s1.tokens = s.tokens ∧ s1.diags = s.diags ∧
        s1.start = s.start := by
  intro fuel
  induction fuel with
  | zero =>
      intro s s1 _ _ heq
      exact absurd heq (by simp [string_loop])
  | succ fuel ih =>
      intro s s1 hs hc heq
      simp only [string_loop] at heq
      rw [Option.bind_eq_some] at heq
      obtain ⟨c, hp, heq⟩ := heq
      by_cases hcond : c ≠ '"' ∧ is_at_end s = false
      · rw [if_pos hcond] at heq
        rw [Option.bind_eq_some] at heq
        obtain ⟨p, hadv, heq⟩ := heq
        have hgc : s.source.get? s.current = some c := by
          rcases peek_cases hp with ⟨he, _⟩ | ⟨_, hgc⟩
          · rw [he] at hcond; cases hcond.2
          · exact hgc
        rw [hs] at hgc
        by_cases hnl : c = '\n'
        · subst hnl
          obtain ⟨hg, hp2⟩ := advance_some hadv
          rw [if_pos rfl] at hp2 hg
          rw [hp2] at heq
          obtain ⟨hPost, hTok, hDiag, hStart⟩ :=
            ih { s with current := s.current + 1, line := s.line + 1 } s1 hs
              (get?_lt hgc) heq
          exact ⟨Post_trans (Post_bump_newline hs hgc) hPost, hTok, hDiag,
            hStart⟩
        · obtain ⟨hg, hp2⟩ := advance_some hadv
          rw [if_neg hnl] at hp2 hg
          rw [hp2] at heq
          obtain ⟨hPost, hTok, hDiag, hStart⟩ :=
            ih { s with current := s.current + 1 } s1 hs (get?_lt hgc) heq
          exact ⟨Post_trans (Post_bump hs hgc hnl) hPost, hTok, hDiag, hStart⟩
      · rw [if_neg hcond] at heq
        cases heq
        exact ⟨Post_refl hs hc, rfl, rfl, rfl⟩

/-- The digit-run loop of `Scanner::number`. -/
theorem digit_loop_post {src : List Char} :
    ∀ (fuel : Nat) (s s1 : Scanner), s.source = src → s.current ≤ src.length →
      digit_loop fuel s = some s1 →
      Post src s s1 ∧ s1.tokens = s.tokens ∧ s1.diags = s.diags ∧
        s1.line = s.line ∧ s1.start = s.start := by
  intro fuel
  induction fuel with
  | zero =>
      intro s s1 _ _ heq
      exact absurd heq (by simp [digit_loop])
  | succ fuel ih =>
      intro s s1 hs hc heq
      simp only [digit_loop] at heq
      rw [Option.bind_eq_some] at heq
      obtain ⟨c, hp, heq⟩ := heq
      by_cases hcond : is_digit c = true
      · rw [if_pos hcond] at heq
        rw [Option.bind_eq_some] at heq
        obtain ⟨p, hadv, heq⟩ := heq
        have hgc : s.source.get? s.current = some c := by
          rcases peek_cases hp with ⟨_, he⟩ | ⟨_, hgc⟩
          · subst he; exact absurd hcond (by decide)
          · exact hgc
        rw [hs] at hgc
        obtain ⟨hg, hp2⟩ := advance_some hadv
        rw [hp2] at heq
        obtain ⟨hPost, hTok, hDiag, hLine, hStart⟩ :=
          ih { s with current := s.current + 1 } s1 hs (get?_lt hgc) heq
        exact ⟨Post_trans (Post_bump hs hgc
          (is_digit_ne hcond (by decide))) hPost, hTok, hDiag, hLine, hStart⟩
      · rw [if_neg (by simpa using hcond)] at heq
        cases heq
        exact ⟨Post_refl hs hc, rfl, rfl, rfl, rfl⟩

/-- Mutating only the diagnostic sink preserves the scan postcondition. -/
theorem Post_keep {src : List Char} {s : Scanner} (hs : s.source = src)
    (hc : s.current ≤ src.length) {d : List (Nat × String)} :
    Post src s { s with diags := d } :=
  ⟨hs, hc, le_rfl, fun h => h, [], (List.append_nil _).symm,
    List.Pairwise.nil, fun t ht => absurd ht (List.not_mem_nil t)⟩

/-- The alphanumeric-run loop of `Scanner::identifier`. -/
theorem ident_loop_post {src : List Char} :
    ∀ (fuel : Nat) (s s1 : Scanner), s.source = src → s.current ≤ src.length →
      ident_loop fuel s = some s1 →
      Post src s s1 ∧ s1.tokens = s.tokens ∧ s1.diags = s.diags ∧
        s1.line = s.line ∧ s1.start = s.start := by
  intro fuel
  induction fuel with
  | zero =>
      intro s s1 _ _ heq
      exact absurd heq (by simp [ident_loop])
  | succ fuel ih =>
      intro s s1 hs hc heq
      simp only [ident_loop] at heq
      rw [Option.bind_eq_some] at heq
      obtain ⟨c, hp, heq⟩ := heq
      by_cases hcond : is_alpah_numeric c = true
      · rw [if_pos hcond] at heq
        rw [Option.bind_eq_some] at heq
        obtain ⟨p, hadv, heq⟩ := heq
        have hgc : s.source.get? s.current = some c := by
          rcases peek_cases hp with ⟨_, he⟩ | ⟨_, hgc⟩
          · subst he; exact absurd hcond (by decide)
          · exact hgc
        rw [hs] at hgc
        obtain ⟨hg, hp2⟩ := advance_some hadv
        rw [hp2] at heq
        obtain ⟨hPost, hTok, hDiag, hLine, hStart⟩ :=
          ih { s with current := s.current + 1 } s1 hs (get?_lt hgc) heq
        exact ⟨Post_trans (Post_bump hs hgc
          (is_alpah_numeric_ne hcond (by decide))) hPost, hTok, hDiag, hLine,
          hStart⟩
      · rw [if_neg (by simpa using hcond)] at heq
        cases heq
        exact ⟨Post_refl hs hc, rfl, rfl, rfl, rfl⟩

/-- Emitting a token: the new token is anchored at the slice
`[start..current]` and carries the line of the current position. -/
theorem add_token_post {src : List Char} {s s1 : Scanner} {tt : TokenType}
    {lit : Literal} (hs : s.source = src) (hc : s.current ≤ src.length)
    (hinv : s.line = lineAt src s.current) (hE : tt ≠ TokenType.Eof)
    (heq : add_token s tt lit = some s1) : Post src s s1 := by
  unfold add_token at heq
  rw [Option.map_eq_some'] at heq
  obtain ⟨text, hsl, hs1⟩ := heq
  subst hs1
  rw [hs] at hsl
  refine ⟨hs, hc, le_rfl, fun h => h,
    [{ token_type := tt, lexeme := text, literal := lit, line := s.line }],
    rfl, by simp, ?_⟩
  intro t ht
  rw [List.mem_singleton] at ht
  subst ht
  exact ⟨⟨s.start, s.current, byteSlice_le hsl, hc, hsl, hinv⟩, hE, le_rfl,
    le_rfl⟩

/-- Peel one arm off an if-chain of optional results. -/
theorem opt_chain {α : Type} {P : Prop} [Decidable P] {a : α} {o : Option α}
    {t : α} (Q : α → Prop) (ha : Q a) (ho : o = some t → Q t) :
    (if P then some a else o) = some t → Q t := by
  intro h
  by_cases hp : P
  · rw [if_pos hp] at h; cases h; exact ha
  · rw [if_neg hp] at h; exact ho h

theorem keywords_ne_eof {text : List Char} {t : TokenType}
    (h : keywords text = some t) : t ≠ TokenType.Eof := by
  unfold keywords at h
  revert h
  iterate 13 refine opt_chain (fun x => x ≠ TokenType.Eof) (by decide) ?_
  intro h
  cases h

/-- `Scanner::scan_string` preserves the scan postcondition. -/
theorem scan_string_post {src : List Char} {s s1 : Scanner}
    (hs : s.source = src) (hc : s.current ≤ src.length)
    (hinv : s.line = lineAt src s.current)
    (heq : scan_string s = some s1) : Post src s s1 := by
  unfold scan_string at heq
  rw [Option.bind_eq_some] at heq
  obtain ⟨t, hloop, heq⟩ := heq
  obtain ⟨hPost, hTok, hDiag, hStart⟩ := string_loop_post _ s t hs hc hloop
  obtain ⟨hts, htc, htl, hti, hnew⟩ := hPost
  by_cases hend : is_at_end t = true
  · rw [if_pos hend] at heq
    cases heq
    exact Post_trans ⟨hts, htc, htl, hti, hnew⟩ (Post_keep hts htc)
  · rw [if_neg hend] at heq
    rw [Option.bind_eq_some] at heq
    obtain ⟨value, hval, heq⟩ := heq
    exact Post_trans ⟨hts, htc, htl, hti, hnew⟩
      (add_token_post hts htc (hti hinv) (by decide) heq)

/-- `Scanner::number` preserves the scan postcondition. -/
theorem number_post {src : List Char} {s s1 : Scanner}
    (hs : s.source = src) (hc : s.current ≤ src.length)
    (hinv : s.line = lineAt src s.current)
    (heq : number s = some s1) : Post src s s1 := by
  unfold number at heq
  rw [Option.bind_eq_some] at heq
  obtain ⟨t, hdl, heq⟩ := heq
  obtain ⟨hPost1, _, _, _, _⟩ := digit_loop_post _ s t hs hc hdl
  have hinv_t : t.line = lineAt src t.current := hPost1.2.2.2.1 hinv
  rw [Option.bind_eq_some] at heq
  obtain ⟨p, hpk, heq⟩ := heq
  rw [Option.bind_eq_some] at heq
  obtain ⟨isFrac, hfrac, heq⟩ := heq
  rw [Option.bind_eq_some] at heq
  obtain ⟨t2, ht2, heq⟩ := heq
  have hts : t.source = src := hPost1.1
  have htc : t.current ≤ src.length := hPost1.2.1
  have hPost2 : Post src t t2 ∧ t2.line = lineAt src t2.current := by
    by_cases hf : isFrac = true
    · rw [if_pos hf] at ht2
      rw [Option.bind_eq_some] at ht2
      obtain ⟨q, hadv, hdl2⟩ := ht2
      obtain ⟨hg, hq2⟩ := advance_some hadv
      have hp_dot : p = '.' := by
        by_cases hpd : p = '.'
        · exact hpd
        · rw [if_neg hpd] at hfrac
          cases hfrac
          cases hf
      subst hp_dot
      have hgt : t.source.get? t.current = some '.' := by
        rcases peek_cases hpk with ⟨_, h0⟩ | ⟨_, hg2⟩
        · exact absurd h0 (by decide)
        · exact hg2
      rw [hts] at hgt
      rw [hq2] at hdl2
      obtain ⟨hPostQ, _, _, _, _⟩ :=
        digit_loop_post _ { t with current := t.current + 1 } t2 hts
          (get?_lt hgt) hdl2
      have hbump := Post_bump hts hgt (by decide)
      refine ⟨Post_trans hbump hPostQ, ?_⟩
      exact hPostQ.2.2.2.1 (hbump.2.2.2.1 hinv_t)
    · have hf' : isFrac = false := by revert hf; cases isFrac <;> simp
      rw [hf'] at ht2
      simp only [Bool.false_eq_true, if_false] at ht2
      cases ht2
      exact ⟨Post_refl hts htc, hinv_t⟩
  obtain ⟨hPost2', hinv2⟩ := hPost2
  have ht2s : t2.source = src := hPost2'.1
  have ht2c : t2.current ≤ src.length := hPost2'.2.1
  rw [Option.bind_eq_some] at heq
  obtain ⟨value, hval, heq⟩ := heq
  by_cases hfr : isFrac = true
  · rw [if_pos hfr] at heq
    rw [Option.bind_eq_some] at heq
    obtain ⟨mk, hparse, haddtok⟩ := heq
    exact Post_trans hPost1 (Post_trans hPost2'
      (add_token_post ht2s ht2c hinv2 (by decide) haddtok))
  · rw [if_neg hfr] at heq
    rw [Option.bind_eq_some] at heq
    obtain ⟨n, hparse, haddtok⟩ := heq
    exact Post_trans hPost1 (Post_trans hPost2'
      (add_token_post ht2s ht2c hinv2 (by decide) haddtok))

/-- `Scanner::identifier` preserves the scan postcondition. -/
theorem identifier_post {src : List Char} {s s1 : Scanner}
    (hs : s.source = src) (hc : s.current ≤ src.length)
    (hinv : s.line = lineAt src s.current)
    (heq : identifier s = some s1) : Post src s s1 := by
  unfold identifier at heq
  rw [Option.bind_eq_some] at heq
  obtain ⟨t, hloop, heq⟩ := heq
  obtain ⟨hPost, _, _, _, _⟩ := ident_loop_post _ s t hs hc hloop
  have hinv_t : t.line = lineAt src t.current := hPost.2.2.2.1 hinv
  have hts : t.source = src := hPost.1
  have htc : t.current ≤ src.length := hPost.2.1
  rw [Option.bind_eq_some] at heq
  obtain ⟨text, htext, heq⟩ := heq
  cases hk : keywords text with
  | some kw =>
      rw [hk] at heq
      exact Post_trans hPost
        (add_token_post hts htc hinv_t (keywords_ne_eof hk) heq)
  | none =>
      rw [hk] at heq
      exact Post_trans hPost
        (add_token_post hts htc hinv_t (by decide) heq)

/-- A single-character token arm of the dispatch. -/
theorem punct_branch {src : List Char} {s s1 : Scanner} {c : Char}
    {tt : TokenType} {lit : Literal}
    (hs : s.source = src) (hg : src.get? s.current = some c)
    (hinv : s.line = lineAt src s.current) (hcn : c ≠ '\n')
    (hE : tt ≠ TokenType.Eof)
    (heq : add_token { s with current := s.current + 1 } tt lit = some s1) :
    Post src s s1 := by
  have hbump := Post_bump hs hg hcn
  exact Post_trans hbump
    (add_token_post hs (get?_lt hg) (hbump.2.2.2.1 hinv) hE heq)

/-- A one-or-two-character operator arm of the dispatch. -/
theorem op_branch {src : List Char} {s s1 : Scanner} {c e : Char}
    {t1 t2 : TokenType}
    (hs : s.source = src) (hg : src.get? s.current = some c)
    (hinv : s.line = lineAt src s.current) (hcn : c ≠ '\n') (hen : e ≠ '\n')
    (h1 : t1 ≠ TokenType.Eof) (h2 : t2 ≠ TokenType.Eof)
    (heq : (match_token { s with current := s.current + 1 } e).bind
        (fun ms => if ms.1 then add_token ms.2 t1 Literal.None
          else add_token ms.2 t2 Literal.None) = some s1) :
    Post src s s1 := by
  have hbump := Post_bump hs hg hcn
  have hinv2 : s.line = lineAt src (s.current + 1) := hbump.2.2.2.1 hinv
  rw [Option.bind_eq_some] at heq
  obtain ⟨ms, hmt, heq⟩ := heq
  rcases match_token_cases hmt with ⟨hb, hms⟩ | ⟨hb, hg2, hms⟩
  · rw [hb] at heq
    simp only [Bool.false_eq_true, if_false] at heq
    rw [hms] at heq
    exact Post_trans hbump (add_token_post hs (get?_lt hg) hinv2 h2 heq)
  · rw [hb] at heq
    simp only [if_true] at heq
    have hg2' : src.get? (s.current + 1) = some e := by
      rw [← hs]; exact hg2
    have hbump2 := Post_bump (s := { s with current := s.current + 1 }) hs
      hg2' hen
    rw [hms] at heq
    exact Post_trans hbump (Post_trans hbump2
      (add_token_post hs (get?_lt hg2') (hbump2.2.2.2.1 hinv2) h1 heq))

/-- The slash arm of the dispatch: either a line comment or a `Slash`
token. -/
theorem slash_branch {src : List Char} {s s1 : Scanner} {c : Char}
    (hs : s.source = src) (hg : src.get? s.current = some c)
    (hinv : s.line = lineAt src s.current) (hcn : c ≠ '\n')
    (heq : (match_token { s with current := s.current + 1 } '/').bind
        (fun ms => if ms.1 then comment_loop (byteLen ms.2.source + 1) ms.2
          else add_token ms.2 TokenType.Slash Literal.None) = some s1) :
    Post src s s1 := by
  have hbump := Post_bump hs hg hcn
  have hinv2 : s.line = lineAt src (s.current + 1) := hbump.2.2.2.1 hinv
  rw [Option.bind_eq_some] at heq
  obtain ⟨ms, hmt, heq⟩ := heq
  rcases match_token_cases hmt with ⟨hb, hms⟩ | ⟨hb, hg2, hms⟩
  · rw [hb] at heq
    simp only [Bool.false_eq_true, if_false] at heq
    rw [hms] at heq
    exact Post_trans hbump (add_token_post hs (get?_lt hg) hinv2 (by decide) heq)
  · rw [hb] at heq
    simp only [if_true] at heq
    have hg2' : src.get? (s.current + 1) = some '/' := by
      rw [← hs]; exact hg2
    have hbump2 := Post_bump (s := { s with current := s.current + 1 }) hs
      hg2' (by decide)
    rw [hms] at heq
    obtain ⟨hPost, _, _, _, _⟩ := comment_loop_post _
      { s with current := s.current + 1 + 1 } s1 hs (get?_lt hg2') heq
    exact Post_trans hbump (Post_trans hbump2 hPost)

/-- One step of the scanner dispatch preserves the scan postcondition. -/
theorem scan_token_post {src : List Char} {s s1 : Scanner}
    (hs : s.source = src) (hinv : s.line = lineAt src s.current)
    (heq : scan_token s = some s1) : Post src s s1 := by
  unfold scan_token at heq
  rw [Option.bind_eq_some] at heq
  obtain ⟨cp, hadv, heq⟩ := heq
  obtain ⟨hg, hcp2⟩ := advance_some hadv
  rw [hs] at hg
  rw [hcp2] at heq
  unfold scan_token_dispatch at heq
  by_cases h1 : cp.1 = '('
  · rw [if_pos h1] at heq
    exact punct_branch hs hg hinv (by rw [h1]; decide) (by decide) heq
  rw [if_neg h1] at heq
  by_cases h2 : cp.1 = ')'
  · rw [if_pos h2] at heq
    exact punct_branch hs hg hinv (by rw [h2]; decide) (by decide) heq
  rw [if_neg h2] at heq
  by_cases h3 : cp.1 = '\x7b'
  · rw [if_pos h3] at heq
    exact punct_branch hs hg hinv (by rw [h3]; decide) (by decide) heq
  rw [if_neg h3] at heq
  by_cases h4 : cp.1 = '\x7d'
  · rw [if_pos h4] at heq
    exact punct_branch hs hg hinv (by rw [h4]; decide) (by decide) heq
  rw [if_neg h4] at heq
  by_cases h5 : cp.1 = ','
  · rw [if_pos h5] at heq
    exact punct_branch hs hg hinv (by rw [h5]; decide) (by decide) heq
  rw [if_neg h5] at heq
  by_cases h6 : cp.1 = '.'
  · rw [if_pos h6] at heq
    exact punct_branch hs hg hinv (by rw [h6]; decide) (by decide) heq
  rw [if_neg h6] at heq
  by_cases h7 : cp.1 = '-'
  · rw [if_pos h7] at heq
    exact punct_branch hs hg hinv (by rw [h7]; decide) (by decide) heq
  rw [if_neg h7] at heq
  by_cases h8 : cp.1 = '+'
  · rw [if_pos h8] at heq
    exact punct_branch hs hg hinv (by rw [h8]; decide) (by decide) heq
  rw [if_neg h8] at heq
  by_cases h9 : cp.1 = ';'
  · rw [if_pos h9] at heq
    exact punct_branch hs hg hinv (by rw [h9]; decide) (by decide) heq
  rw [if_neg h9] at heq
  by_cases h10 : cp.1 = '*'
  · rw [if_pos h10] at heq
    exact punct_branch hs hg hinv (by rw [h10]; decide) (by decide) heq
  rw [if_neg h10] at heq
  by_cases h11 : cp.1 = '!'
  · rw [if_pos h11] at heq
    exact op_branch hs hg hinv (by rw [h11]; decide) (by decide) (by decide)
      (by decide) heq
  rw [if_neg h11] at heq
  by_cases h12 : cp.1 = '='
  · rw [if_pos h12] at heq
    exact op_branch hs hg hinv (by rw [h12]; decide) (by decide) (by decide)
      (by decide) heq
  rw [if_neg h12] at heq
  by_cases h13 : cp.1 = '<'
  · rw [if_pos h13] at heq
    exact op_branch hs hg hinv (by rw [h13]; decide) (by decide) (by decide)
      (by decide) heq
  rw [if_neg h13] at heq
  by_cases h14 : cp.1 = '>'
  · rw [if_pos h14] at heq
    exact op_branch hs hg hinv (by rw [h14]; decide) (by decide) (by decide)
      (by decide) heq
  rw [if_neg h14] at heq
  by_cases h15 : cp.1 = '/'
  · rw [if_pos h15] at heq
    exact slash_branch hs hg hinv (by rw [h15]; decide) heq
  rw [if_neg h15] at heq
  by_cases h16 : cp.1 = ' '
  · rw [if_pos h16] at heq
    cases heq
    exact Post_bump hs hg (by rw [h16]; decide)
  rw [if_neg h16] at heq
  by_cases h17 : cp.1 = '\x0d'
  · rw [if_pos h17] at heq
    cases heq
    exact Post_bump hs hg (by rw [h17]; decide)
  rw [if_neg h17] at heq
  by_cases h18 : cp.1 = '\t'
  · rw [if_pos h18] at heq
    cases heq
    exact Post_bump hs hg (by rw [h18]; decide)
  rw [if_neg h18] at heq
  by_cases h19 : cp.1 = '\n'
  · rw [if_pos h19] at heq
    cases heq
    rw [h19] at hg
    exact Post_bump_newline hs hg
  rw [if_neg h19] at heq
  by_cases h20 : cp.1 = '"'
  · rw [if_pos h20] at heq
    have hbump := Post_bump hs hg h19
    exact Post_trans hbump
      (scan_string_post hs (get?_lt hg) (hbump.2.2.2.1 hinv) heq)
  rw [if_neg h20] at heq
  by_cases h21 : is_digit cp.1 = true
  · rw [if_pos h21] at heq
    have hbump := Post_bump hs hg h19
    exact Post_trans hbump
      (number_post hs (get?_lt hg) (hbump.2.2.2.1 hinv) heq)
  rw [if_neg (by simpa using h21)] at heq
  by_cases h22 : is_alpha cp.1 = true
  · rw [if_pos h22] at heq
    have hbump := Post_bump hs hg h19
    exact Post_trans hbump
      (identifier_post hs (get?_lt hg) (hbump.2.2.2.1 hinv) heq)
  rw [if_neg (by simpa using h22)] at heq
  cases heq
  have hbump := Post_bump hs hg h19
  exact Post_trans hbump
    (Post_keep (s := { s with current := s.current + 1 }) hs (get?_lt hg))

/-- The main scanning loop preserves the scan postcondition and stops
only at end of input. -/
theorem scan_loop_post {src : List Char} :
    ∀ (fuel : Nat) (s s1 : Scanner), s.source = src → s.current ≤ src.length →
      s.line = lineAt src s.current → scan_loop fuel s = some s1 →
      Post src s s1 ∧ is_at_end s1 = true ∧ s1.line = lineAt src s1.current := by
  intro fuel
  induction fuel with
  | zero =>
      intro s s1 _ _ _ heq
      exact absurd heq (by simp [scan_loop])
  | succ fuel ih =>
      intro s s1 hs hc hinv heq
      simp only [scan_loop] at heq
      by_cases hend : is_at_end s = true
      · rw [if_pos hend] at heq
        cases heq
        exact ⟨Post_refl hs hc, hend, hinv⟩
      · rw [if_neg hend] at heq
        rw [Option.bind_eq_some] at heq
        obtain ⟨t, htok, hrec⟩ := heq
        have hPost1 :=
          scan_token_post (s := { s with start := s.current }) hs hinv htok
        obtain ⟨hts, htc, htl, hti, hnew⟩ := hPost1
        have hinv_t : t.line = lineAt src t.current := hti hinv
        obtain ⟨hPost2, hend2, hinv2⟩ := ih t s1 hts htc hinv_t hrec
        exact ⟨Post_trans ⟨hts, htc, htl, hti, hnew⟩ hPost2, hend2, hinv2⟩

/-- What one whole `run` guarantees about its final state. -/
theorem run_spec {src : List Char} {st : Scanner} (h : run src = some st) :
    ∃ s1 : Scanner,
      Post src { source := src, tokens := [], start := 0, current := 0,
                 line := 1, diags := [] } s1 ∧
      s1.current = src.length ∧ byteLen src = src.length ∧
      s1.line = 1 + src.count '\n' ∧
      st = { s1 with tokens := s1.tokens ++
        [{ token_type := TokenType.Eof, lexeme := [], literal := Literal.None,
           line := s1.line }] } := by
  unfold run scan_tokens at h
  rw [Option.map_eq_some'] at h
  obtain ⟨s1, hloop, hst⟩ := h
  obtain ⟨hPost, hend, hinv⟩ :=
    @scan_loop_post src _ _ s1 rfl (Nat.zero_le _)
      (lineAt_zero src).symm hloop
  have h1 : byteLen src ≤ s1.current := by
    have h2 := hend
    simp only [is_at_end, ge_iff_le, decide_eq_true_eq] at h2
    rwa [hPost.1] at h2
  have h3 := length_le_byteLen src
  have h4 := hPost.2.1
  have hcur : s1.current = src.length := by omega
  have hbl : byteLen src = src.length := by omega
  have hline : s1.line = 1 + src.count '\n' := by
    rw [hinv, hcur, lineAt_length]
  exact ⟨s1, hPost, hcur, hbl, hline, hst.symm⟩

theorem getLast?_append_singleton {α : Type} (l : List α) (a : α) :
    (l ++ [a]).getLast? = some a := by
  rw [List.getLast?_concat]

/-- C6: whenever the scan completes, the end-of-input token's line is
the number of newline characters in the source plus one (so 1 for empty
input). -/
theorem c6_eof_line (src : List Char) (st : Scanner) (h : run src = some st) :
    st.tokens.getLast? =
      some { token_type := TokenType.Eof, lexeme := [], literal := Literal.None,
             line := 1 + src.count '\n' } := by
  obtain ⟨s1, hPost, hcur, hbl, hline, hst⟩ := run_spec h
  subst hst
  show (s1.tokens ++ [_]).getLast? = _
  rw [getLast?_append_singleton, hline]

/-- Witness for C6 on the one-character source consisting of a newline. -/
theorem c6_eof_line_witness :
    ({ source := [('\n')],
       tokens := [{ token_type := TokenType.Eof, lexeme := [],
                    literal := Literal.None, line := 2 }],
       start := 0, current := 1, line := 2, diags := [] } : Scanner).tokens.getLast?
      = some { token_type := TokenType.Eof, lexeme := [],
               literal := Literal.None, line := 1 + List.count '\n' [('\n')] } :=
  c6_eof_line [('\n')] _ (by decide)

/-- C5, amended: whenever the scan completes, every token in the result
(end-of-input token included) is anchored in the source: some byte range
of the source slices to its lexeme and its line field equals the line of
the position just past its lexeme — the line of the token's last
character, not of its first. -/
theorem c5_token_line_amended (src : List Char) (st : Scanner)
    (h : run src = some st) : ∀ t ∈ st.tokens, TokAt src t := by
  obtain ⟨s1, hPost, hcur, hbl, hline, hst⟩ := run_spec h
  subst hst
  intro t ht
  rcases List.mem_append.mp ht with h1 | h2
  · obtain ⟨new, htoks, hpw, hall⟩ := hPost.2.2.2.2
    rw [htoks] at h1
    rw [List.nil_append] at h1
    exact (hall t h1).1
  · rw [List.mem_singleton] at h2
    subst h2
    refine ⟨src.length, src.length, le_rfl, le_rfl, ?_, ?_⟩
    · show byteSlice src src.length src.length = some []
      rw [← hbl]
      exact byteSlice_byteLen_byteLen src
    · show s1.line = lineAt src src.length
      rw [hline, lineAt_length]

/-- Witness for C5 (amended): the `Number` token of the one-character
source "1" is anchored in it. -/
theorem c5_token_line_amended_witness :
    TokAt [('1')] { token_type := TokenType.Number, lexeme := [('1')],
                    literal := Literal.Integer 1, line := 1 } :=
  c5_token_line_amended [('1')]
    { source := [('1')],
      tokens := [{ token_type := TokenType.Number, lexeme := [('1')],
                   literal := Literal.Integer 1, line := 1 },
                 { token_type := TokenType.Eof, lexeme := [],
                   literal := Literal.None, line := 1 }],
      start := 0, current := 1, line := 1, diags := [] }
    (by decide) _ (by decide)

/-- C8: whenever the scan completes, token lines are non-decreasing in
emission order, the sequence ends with exactly one end-of-input token
with empty lexeme, and no end-of-input token occurs anywhere else. -/
theorem c8_stream_invariants (src : List Char) (st : Scanner)
    (h : run src = some st) :
    st.tokens.Pairwise lineLE ∧
    st.tokens.getLast? =
      some { token_type := TokenType.Eof, lexeme := [], literal := Literal.None,
             line := 1 + src.count '\n' } ∧
    ∀ u ∈ st.tokens.dropLast, u.token_type ≠ TokenType.Eof := by
  obtain ⟨s1, hPost, hcur, hbl, hline, hst⟩ := run_spec h
  subst hst
  obtain ⟨new, htoks, hpw, hall⟩ := hPost.2.2.2.2
  rw [List.nil_append] at htoks
  refine ⟨?_, ?_, ?_⟩
  · rw [List.pairwise_append]
    refine ⟨by rw [htoks]; exact hpw, by simp [List.pairwise_singleton], ?_⟩
    intro a ha b hb
    rw [List.mem_singleton] at hb
    subst hb
    show a.line ≤ s1.line
    rw [htoks] at ha
    exact (hall a ha).2.2.2
  · rw [getLast?_append_singleton, hline]
  · rw [List.dropLast_concat]
    intro u hu
    rw [htoks] at hu
    exact (hall u hu).2.1

/-- Witness for C8 on the one-character source "1". -/
theorem c8_stream_invariants_witness :
    ({ source := [('1')],
       tokens := [{ token_type := TokenType.Number, lexeme := [('1')],
                    literal := Literal.Integer 1, line := 1 },
                  { token_type := TokenType.Eof, lexeme := [],
                    literal := Literal.None, line := 1 }],
       start := 0, current := 1, line := 1, diags := [] } : Scanner).tokens.Pairwise
        lineLE ∧
    ({ source := [('1')],
       tokens := [{ token_type := TokenType.Number, lexeme := [('1')],
                    literal := Literal.Integer 1, line := 1 },
                  { token_type := TokenType.Eof, lexeme := [],
                    literal := Literal.None, line := 1 }],
       start := 0, current := 1, line := 1, diags := [] } : Scanner).tokens.getLast?
      = some { token_type := TokenType.Eof, lexeme := [],
               literal := Literal.None, line := 1 + List.count '\n' [('1')] } ∧
    ∀ u ∈ ({ source := [('1')],
             tokens := [{ token_type := TokenType.Number, lexeme := [('1')],
                          literal := Literal.Integer 1, line := 1 },
                        { token_type := TokenType.Eof, lexeme := [],
                          literal := Literal.None, line := 1 }],
             start := 0, current := 1, line := 1,
             diags := [] } : Scanner).tokens.dropLast,
      u.token_type ≠ TokenType.Eof :=
  c8_stream_invariants [('1')] _ (by decide)

theorem peek_not_end {s : Scanner} (h : is_at_end s = false) :
    peek s = s.source.get? s.current := by
  unfold peek
  rw [h]
  simp

theorem peek_at_end {s : Scanner} (h : is_at_end s = true) :
    peek s = some '\x00' := by
  unfold peek
  rw [h]
  simp

theorem advance_eq_of_get {s : Scanner} {c : Char}
    (h : s.source.get? s.current = some c) :
    advance s = some (c, { s with current := s.current + 1 }) := by
  unfold advance
  rw [h]
  rfl

theorem bind_advance {s : Scanner} {c : Char}
    (h : s.source.get? s.current = some c) (f : Char × Scanner → Option Scanner) :
    (advance s).bind f = f (c, { s with current := s.current + 1 }) := by
  rw [advance_eq_of_get h, Option.some_bind]

theorem drop_cons_get {l : List Char} {n : Nat} {c : Char}
    (h : l.get? n = some c) : l.drop n = c :: l.drop (n + 1) := by
  have hlt := get?_lt h
  rw [List.drop_eq_getElem_cons hlt]
  have hc : l[n] = c := by
    have h2 : l[n]? = some c := by rw [← List.get?_eq_getElem?]; exact h
    rw [List.getElem?_eq_getElem hlt, Option.some.injEq] at h2
    exact h2
  rw [hc]

/-- On an all-ASCII source with no closing quote ahead, the string-body
loop runs to end of input, adding one to the line counter per remaining
newline. -/
theorem string_loop_no_quote {src : List Char}
    (hascii : ∀ c ∈ src, utf8Size c = 1) :
    ∀ (fuel : Nat) (s : Scanner), s.source = src → s.current ≤ src.length →
      (∀ c ∈ src.drop s.current, c ≠ '"') → src.length - s.current < fuel →
      string_loop fuel s =
        some { s with current := src.length,
                      line := s.line + List.count '\n' (src.drop s.current) } := by
  intro fuel
  induction fuel with
  | zero =>
      intro s _ _ _ hf
      omega
  | succ fuel ih =>
      intro s hs hc hq hf
      have hbl : byteLen src = src.length := byteLen_ascii hascii
      by_cases hcur : s.current < src.length
      · have hget : src.get? s.current = some (src.get ⟨s.current, hcur⟩) :=
          List.get?_eq_get hcur
        set c := src.get ⟨s.current, hcur⟩ with hcdef
        have hdrop : src.drop s.current = c :: src.drop (s.current + 1) :=
          drop_cons_get hget
        have hcq : c ≠ '"' := hq c (by rw [hdrop]; exact List.mem_cons_self _ _)
        have hend : is_at_end s = false := by
          simp only [is_at_end, ge_iff_le, decide_eq_false_iff_not]
          rw [hs, hbl]
          omega
        have hpk : peek s = some c := by
          rw [peek_not_end hend, hs]
          exact hget
        have hgs : s.source.get? s.current = some c := by rw [hs]; exact hget
        simp only [string_loop]
        rw [hpk, Option.some_bind]
        rw [if_pos (show c ≠ '"' ∧ is_at_end s = false from ⟨hcq, hend⟩)]
        by_cases hnl : c = '\n'
        · rw [if_pos hnl]
          rw [bind_advance (s := { s with line := s.line + 1 }) hgs]
          show string_loop fuel
              { s with current := s.current + 1, line := s.line + 1 } = _
          rw [ih { s with current := s.current + 1, line := s.line + 1 } hs
            hcur (fun d hd => hq d (by rw [hdrop]; exact List.mem_cons_of_mem _ hd))
            (by show src.length - (s.current + 1) < fuel; omega)]
          simp only [Option.some.injEq, Scanner.mk.injEq, true_and, and_true]
          rw [hdrop, List.count_cons]
          simp only [hnl]
          simp
          omega
        · rw [if_neg hnl]
          rw [bind_advance (s := s) hgs]
          show string_loop fuel { s with current := s.current + 1 } = _
          rw [ih { s with current := s.current + 1 } hs
            hcur (fun d hd => hq d (by rw [hdrop]; exact List.mem_cons_of_mem _ hd))
            (by show src.length - (s.current + 1) < fuel; omega)]
          simp only [Option.some.injEq, Scanner.mk.injEq, true_and, and_true]
          rw [hdrop, List.count_cons]
          have : (c == '\n') = false := by
            simp [hnl]
          rw [this]
          simp
      · have hce : s.current = src.length := by omega
        have hend : is_at_end s = true := by
          simp only [is_at_end, ge_iff_le, decide_eq_true_eq]
          rw [hs, hbl]
          omega
        simp only [string_loop]
        rw [peek_at_end hend, Option.some_bind]
        rw [if_neg (by simp [hend])]
        have h0 : List.count '\n' (src.drop s.current) = 0 := by
          rw [hce, List.drop_length]
          rfl
        rw [h0, ← hce]
        rfl

/-- The dispatch sends a double quote to `scan_string`. -/
theorem scan_token_dispatch_quote (s : Scanner) :
    scan_token_dispatch '"' s = scan_string s := by
  unfold scan_token_dispatch
  rw [if_neg (by decide), if_neg (by decide), if_neg (by decide),
      if_neg (by decide), if_neg (by decide), if_neg (by decide),
      if_neg (by decide), if_neg (by decide), if_neg (by decide),
      if_neg (by decide), if_neg (by decide), if_neg (by decide),
      if_neg (by decide), if_neg (by decide), if_neg (by decide),
      if_neg (by decide), if_neg (by decide), if_neg (by decide),
      if_neg (by decide), if_pos rfl]

/-- The dispatch sends a decimal digit to `number`. -/
theorem scan_token_dispatch_digit {c : Char} (hd : is_digit c = true)
    (s : Scanner) : scan_token_dispatch c s = number s := by
  unfold scan_token_dispatch
  rw [if_neg (is_digit_ne hd (by decide)), if_neg (is_digit_ne hd (by decide)),
      if_neg (is_digit_ne hd (by decide)), if_neg (is_digit_ne hd (by decide)),
      if_neg (is_digit_ne hd (by decide)), if_neg (is_digit_ne hd (by decide)),
      if_neg (is_digit_ne hd (by decide)), if_neg (is_digit_ne hd (by decide)),
      if_neg (is_digit_ne hd (by decide)), if_neg (is_digit_ne hd (by decide)),
      if_neg (is_digit_ne hd (by decide)), if_neg (is_digit_ne hd (by decide)),
      if_neg (is_digit_ne hd (by decide)), if_neg (is_digit_ne hd (by decide)),
      if_neg (is_digit_ne hd (by decide)), if_neg (is_digit_ne hd (by decide)),
      if_neg (is_digit_ne hd (by decide)), if_neg (is_digit_ne hd (by decide)),
      if_neg (is_digit_ne hd (by decide)), if_neg (is_digit_ne hd (by decide)),
      if_pos hd]

/-- C3, amended: on an all-ASCII source that is an opening quote never
followed by another quote, the scan emits no token for the string lexeme,
terminates normally with the end-of-input token, and reports exactly one
`UnterminatedString` diagnostic — at the line reached at end of input
(the opening line plus the number of embedded newlines), not at the
opening quote's line. -/
theorem c3_unterminated_amended (rest : List Char)
    (hascii : ∀ c ∈ rest, utf8Size c = 1) (hq : ∀ c ∈ rest, c ≠ '"') :
    run ('"' :: rest) =
      some ⟨'"' :: rest,
            [{ token_type := TokenType.Eof, lexeme := [],
               literal := Literal.None, line := 1 + List.count '\n' rest }],
            0, rest.length + 1, 1 + List.count '\n' rest,
            [(1 + List.count '\n' rest, "Unterminated string.")]⟩ := by
  have hascii2 : ∀ c ∈ '"' :: rest, utf8Size c = 1 := by
    intro c hc
    rcases List.mem_cons.mp hc with h | h
    · subst h; decide
    · exact hascii c h
  have hbl : byteLen ('"' :: rest) = rest.length + 1 := by
    rw [byteLen_ascii hascii2]
    simp
  have hget0 : ('"' :: rest).get? 0 = some '"' := rfl
  have hstep : scan_token (⟨'"' :: rest, [], 0, 0, 1, []⟩ : Scanner) =
      some ⟨'"' :: rest, [], 0, rest.length + 1, 1 + List.count '\n' rest,
            [(1 + List.count '\n' rest, "Unterminated string.")]⟩ := by
    unfold scan_token
    rw [bind_advance (s := (⟨'"' :: rest, [], 0, 0, 1, []⟩ : Scanner)) hget0]
    show scan_token_dispatch '"' (⟨'"' :: rest, [], 0, 1, 1, []⟩ : Scanner) = _
    rw [scan_token_dispatch_quote]
    unfold scan_string
    rw [@string_loop_no_quote ('"' :: rest) hascii2
      (byteLen (⟨'"' :: rest, [], 0, 1, 1, []⟩ : Scanner).source + 1)
      (⟨'"' :: rest, [], 0, 1, 1, []⟩ : Scanner) rfl
      (by show (1 : Nat) ≤ ('"' :: rest).length; simp)
      (by intro d hd
          exact hq d (by simpa using hd))
      (by show ('"' :: rest).length - 1 < byteLen ('"' :: rest) + 1
          rw [hbl]
          simp
          omega)]
    rw [Option.some_bind]
    show (if is_at_end (⟨'"' :: rest, [], 0, rest.length + 1,
            1 + List.count '\n' rest, []⟩ : Scanner) = true then
        some { (⟨'"' :: rest, [], 0, rest.length + 1,
                1 + List.count '\n' rest, []⟩ : Scanner) with
               diags := [] ++ [(1 + List.count '\n' rest,
                 "Unterminated string.")] }
      else
        (byteSlice ('"' :: rest) (0 + 1) (rest.length + 1 - 1)).bind
          (fun value => add_token (⟨'"' :: rest, [], 0, rest.length + 1,
            1 + List.count '\n' rest, []⟩ : Scanner) TokenType.String
            (Literal.String value))) = _
    rw [if_pos (by simp only [is_at_end, ge_iff_le, decide_eq_true_eq]
                   show byteLen ('"' :: rest) ≤ rest.length + 1
                   rw [hbl])]
    rfl
  unfold run scan_tokens
  show (scan_loop (byteLen ('"' :: rest) + 1)
      (⟨'"' :: rest, [], 0, 0, 1, []⟩ : Scanner)).map _ = _
  rw [hbl]
  simp only [scan_loop]
  rw [if_neg (by simp [is_at_end, hbl])]
  show ((scan_token (⟨'"' :: rest, [], 0, 0, 1, []⟩ : Scanner)).bind
      (scan_loop (rest.length + 1))).map _ = _
  rw [hstep, Option.some_bind]
  simp only [scan_loop]
  rw [if_pos (by simp only [is_at_end, ge_iff_le, decide_eq_true_eq]
                 show byteLen ('"' :: rest) ≤ rest.length + 1
                 rw [hbl])]
  rfl

/-- Witness for C3 (amended) on the unterminated string source `"a\nb`. -/
theorem c3_unterminated_amended_witness :
    run ['"', 'a', '\n', 'b'] =
      some ⟨['"', 'a', '\n', 'b'],
            [{ token_type := TokenType.Eof, lexeme := [],
               literal := Literal.None,
               line := 1 + List.count '\n' ['a', '\n', 'b'] }],
            0, 4, 1 + List.count '\n' ['a', '\n', 'b'],
            [(1 + List.count '\n' ['a', '\n', 'b'], "Unterminated string.")]⟩ :=
  c3_unterminated_amended ['a', '\n', 'b'] (by decide) (by decide)

/-- Decimal digits are one-byte characters. -/
theorem is_digit_utf8 {c : Char} (h : is_digit c = true) : utf8Size c = 1 := by
  unfold is_digit at h
  rw [Bool.and_eq_true] at h
  have h9 : c ≤ '9' := of_decide_eq_true h.2
  have h9' : c.toNat ≤ 57 := h9
  unfold utf8Size
  rw [if_pos (by omega)]

/-- A loop at end of input exits immediately. -/
theorem scan_loop_at_end {fuel : Nat} {s : Scanner} (h : is_at_end s = true)
    (hf : 0 < fuel) : scan_loop fuel s = some s := by
  cases fuel with
  | zero => omega
  | succ n =>
      simp only [scan_loop]
      rw [if_pos h]

/-- On an all-ASCII source whose remainder is all digits, the digit loop
of `Scanner::number` consumes everything up to end of input. -/
theorem digit_loop_all {src : List Char}
    (hascii : ∀ c ∈ src, utf8Size c = 1) :
    ∀ (fuel : Nat) (s : Scanner), s.source = src → s.current ≤ src.length →
      (∀ c ∈ src.drop s.current, is_digit c = true) →
      src.length - s.current < fuel →
      digit_loop fuel s = some { s with current := src.length } := by
  intro fuel
  induction fuel with
  | zero =>
      intro s _ _ _ hf
      omega
  | succ fuel ih =>
      intro s hs hc hdig hf
      have hbl : byteLen src = src.length := byteLen_ascii hascii
      by_cases hcur : s.current < src.length
      · have hget : src.get? s.current = some (src.get ⟨s.current, hcur⟩) :=
          List.get?_eq_get hcur
        set c := src.get ⟨s.current, hcur⟩ with hcdef
        have hdrop : src.drop s.current = c :: src.drop (s.current + 1) :=
          drop_cons_get hget
        have hcd : is_digit c = true :=
          hdig c (by rw [hdrop]; exact List.mem_cons_self _ _)
        have hend : is_at_end s = false := by
          simp only [is_at_end, ge_iff_le, decide_eq_false_iff_not]
          rw [hs, hbl]
          omega
        have hpk : peek s = some c := by
          rw [peek_not_end hend, hs]
          exact hget
        have hgs : s.source.get? s.current = some c := by rw [hs]; exact hget
        simp only [digit_loop]
        rw [hpk, Option.some_bind, if_pos hcd, bind_advance (s := s) hgs]
        show digit_loop fuel { s with current := s.current + 1 } = _
        rw [ih { s with current := s.current + 1 } hs hcur
          (fun d hd => hdig d (by rw [hdrop]; exact List.mem_cons_of_mem _ hd))
          (by show src.length - (s.current + 1) < fuel; omega)]
      · have hce : s.current = src.length := by omega
        have hend : is_at_end s = true := by
          simp only [is_at_end, ge_iff_le, decide_eq_true_eq]
          rw [hs, hbl]
          omega
        simp only [digit_loop]
        rw [peek_at_end hend, Option.some_bind, if_neg (by decide), ← hce]

/-- C9: an entire source consisting of decimal digits whose value fits
in a signed 32-bit integer scans to exactly one `Number` token whose
`Integer` payload is that exact value (the overflow threshold 2147483647
is `i32::MAX`), followed by the end-of-input token. -/
theorem c9_i32_integer_payload (ds : List Char) (hne : ds ≠ [])
    (hd : ∀ c ∈ ds, is_digit c = true)
    (hbound : digitsVal ds ≤ 2147483647) :
    run ds =
      some ⟨ds,
            [{ token_type := TokenType.Number, lexeme := ds,
               literal := Literal.Integer (Int.ofNat (digitsVal ds)), line := 1 },
             { token_type := TokenType.Eof, lexeme := [],
               literal := Literal.None, line := 1 }],
            0, ds.length, 1, []⟩ := by
  have hascii : ∀ c ∈ ds, utf8Size c = 1 := fun c hc => is_digit_utf8 (hd c hc)
  have hbl : byteLen ds = ds.length := byteLen_ascii hascii
  have hpos : 0 < ds.length := List.length_pos.mpr hne
  have hget0 : ds.get? 0 = some (ds.get ⟨0, hpos⟩) := List.get?_eq_get hpos
  set d0 := ds.get ⟨0, hpos⟩ with hd0def
  have hd0 : is_digit d0 = true := hd d0 (ds.get_mem _ _)
  have hend1 : is_at_end (⟨ds, [], 0, ds.length, 1, []⟩ : Scanner) = true := by
    simp only [is_at_end, ge_iff_le, decide_eq_true_eq]
    show byteLen ds ≤ ds.length
    rw [hbl]
  have hslice : byteSlice ds 0 ds.length = some ds := by
    rw [← hbl]
    exact byteSlice_zero_byteLen ds
  have hparse : parse_i32 ds = some (Int.ofNat (digitsVal ds)) := by
    unfold parse_i32
    rw [if_pos ⟨hne, List.all_eq_true.mpr hd⟩, if_pos hbound]
  have hstep : scan_token (⟨ds, [], 0, 0, 1, []⟩ : Scanner) =
      some ⟨ds,
            [{ token_type := TokenType.Number, lexeme := ds,
               literal := Literal.Integer (Int.ofNat (digitsVal ds)),
               line := 1 }],
            0, ds.length, 1, []⟩ := by
    unfold scan_token
    rw [bind_advance (s := (⟨ds, [], 0, 0, 1, []⟩ : Scanner)) hget0]
    show scan_token_dispatch d0 (⟨ds, [], 0, 1, 1, []⟩ : Scanner) = _
    rw [scan_token_dispatch_digit hd0]
    unfold number
    show (digit_loop (byteLen ds + 1) (⟨ds, [], 0, 1, 1, []⟩ : Scanner)).bind _
      = _
    rw [digit_loop_all hascii (byteLen ds + 1) (⟨ds, [], 0, 1, 1, []⟩ : Scanner)
      rfl (by show (1 : Nat) ≤ ds.length; omega)
      (fun c hc => hd c (List.drop_subset _ _ hc))
      (by show ds.length - 1 < byteLen ds + 1; rw [hbl]; omega)]
    rw [Option.some_bind]
    show (peek (⟨ds, [], 0, ds.length, 1, []⟩ : Scanner)).bind _ = _
    rw [peek_at_end hend1, Option.some_bind]
    show (if ('\x00' : Char) = '.' then _ else some false).bind _ = _
    rw [if_neg (by decide), Option.some_bind]
    show (if (false : Bool) = true then _
      else some (⟨ds, [], 0, ds.length, 1, []⟩ : Scanner)).bind _ = _
    rw [if_neg (by decide), Option.some_bind]
    show (byteSlice ds 0 ds.length).bind _ = _
    rw [hslice, Option.some_bind]
    show (if (false : Bool) = true then _ else (parse_i32 ds).bind _) = _
    rw [if_neg (by decide), hparse, Option.some_bind]
    show add_token (⟨ds, [], 0, ds.length, 1, []⟩ : Scanner) TokenType.Number
      (Literal.Integer (Int.ofNat (digitsVal ds))) = _
    unfold add_token
    show (byteSlice ds 0 ds.length).map _ = _
    rw [hslice, Option.map_some']
    rfl
  unfold run scan_tokens
  show (scan_loop (byteLen ds + 1) (⟨ds, [], 0, 0, 1, []⟩ : Scanner)).map _ = _
  rw [hbl]
  simp only [scan_loop]
  rw [if_neg (by simp only [is_at_end, ge_iff_le, decide_eq_true_eq]
                 show ¬ byteLen ds ≤ 0
                 rw [hbl]
                 omega)]
  show ((scan_token (⟨ds, [], 0, 0, 1, []⟩ : Scanner)).bind
      (scan_loop ds.length)).map _ = _
  rw [hstep, Option.some_bind]
  have hend2 : is_at_end (⟨ds,
      [{ token_type := TokenType.Number, lexeme := ds,
         literal := Literal.Integer (Int.ofNat (digitsVal ds)), line := 1 }],
      0, ds.length, 1, []⟩ : Scanner) = true := by
    simp only [is_at_end, ge_iff_le, decide_eq_true_eq]
    show byteLen ds ≤ ds.length
    rw [hbl]
  rw [scan_loop_at_end hend2 hpos, Option.map_some']
  rfl

/-- Witness for C9 on the source "42". -/
theorem c9_i32_integer_payload_witness :
    run (("42").data) =
      some ⟨("42").data,
            [{ token_type := TokenType.Number, lexeme := ("42").data,
               literal := Literal.Integer (Int.ofNat (digitsVal (("42").data))),
               line := 1 },
             { token_type := TokenType.Eof, lexeme := [],
               literal := Literal.None, line := 1 }],
            0, ("42").data.length, 1, []⟩ :=
  c9_i32_integer_payload (("42").data) (by decide) (by decide) (by decide)

end Rlox
